import Mathlib

/-!
A shallow embedding of the `csvadapter` Go package (`adapter.go`, `options.go`)
and proofs about its tag-driven schema builder (`NewCSVAdapter`), its row codec
(`FromCSV` / `ToCSV`) and its per-value codec (`marshalField` / `unmarshalField`).

Modelling conventions:
* Go strings are Lean `String`s; `strings.Split` with a one-character separator
  (the only way the package calls it) is `splitStr`.
* `encoding/csv` reading and writing is modelled at the level of rows of cells
  (`List String`): the adapter hands `csv.Writer.Write` a `[]string` per row and
  receives a `[]string` per row from `csv.Reader.Read`.  The reader's per-record
  field-count validation (`csv.ErrFieldCount` against the header's width) is
  modelled in `processRow`.
* `reflect` values of the kinds the adapter dispatches on are `GoValue`s; the
  record type's field list is a `StructType`; a struct value is a `GoRecord`
  (an association list in declaration order, field names unique as in Go).
  The 64-bit integer kind is modelled (`GoKind.int`, `strconv.Atoi`); the other
  integer widths of `unmarshalField` differ only in their bit-width argument and
  are not exercised here.  `float64` values are modelled by their exact rational
  value; `fmt.Sprintf` with the `%f` verb and `strconv.ParseFloat` are modelled
  exactly on the decimal fragment (`formatFloat`, `parseGoFloat`).
* A type's `encoding.TextMarshaler` / `encoding.TextUnmarshaler` / `fmt.Stringer`
  capabilities are flags on the `custom` kind; the modelled capability stores /
  returns the textual payload verbatim and never fails, like the custom types in
  the repository (`Email`, `PersonWithManyTypesEmail`).  Go only consults these
  capabilities through `field.Addr()`, guarded by `field.CanAddr()`; the
  `canAddr` argument of `marshalField` / `unmarshalField` models addressability.
* `errors.Join` trees are flattened to lists of base errors; `errors.Is e t`
  is membership.  Purely informational `fmt.Errorf` wrappers that carry no
  sentinel (the reflect kind name, the underlying `strconv` error) are dropped.
-/

namespace CsvAdapter

/-- The sentinel errors of `adapter.go` (`ErrUnsupportedTag`, ...), plus the
`csv.ErrFieldCount` sentinel of `encoding/csv`, the `ReadingError` payload
(line / field / alias) and an `info` wrapper for `fmt.Errorf` payloads whose
text the code interpolates (tag part, field name, field alias). -/
inductive GoBaseErr where
  | unsupportedTag
  | invalidTag
  | notStruct
  | readingCSV
  | readingCSVLines
  | processingCSVLines
  | fieldNotFound
  | unprocessableType
  | parsingType
  | emptyValue
  | aliasNotFound
  | fieldCount
  | info (s : String)
  | readErr (line : Nat) (fieldName fieldAlias : String)
  deriving DecidableEq

/-- An `errors.Join` tree, flattened: joining is list append, `errors.Is` is
membership. -/
abbrev GoErr := List GoBaseErr

/-- The reflect kinds the adapter's value codec dispatches on.  `custom` stands
for any non-primitive, non-pointer kind (struct, map, slice, ...) together with
which of the three textual capabilities the type implements. -/
inductive GoKind where
  | str
  | int
  | bool
  | float
  | ptr (elem : GoKind)
  | custom (hasTextUnmarshaler hasTextMarshaler hasStringer : Bool)
  deriving DecidableEq

/-- A runtime value of one of the modelled kinds.  A `float` holds the exact
rational value of the `float64`.  A `custom` value records its type's
marshal/stringer capabilities and its textual payload. -/
inductive GoValue where
  | str (s : String)
  | int (i : Int)
  | bool (b : Bool)
  | float (q : ℚ)
  | ptrNil
  | ptrSome (v : GoValue)
  | custom (hasTextMarshaler hasStringer : Bool) (payload : String)
  deriving DecidableEq

/-- `reflect.Kind() == reflect.Ptr && IsNil()`. -/
def isNilPtr : GoValue → Bool
  | .ptrNil => true
  | _ => false

/-- The zero `reflect.Value` of a kind (`reflect.New(t).Elem()`). -/
def zeroValue : GoKind → GoValue
  | .str => .str ""
  | .int => .int 0
  | .bool => .bool false
  | .float => .float 0
  | .ptr _ => .ptrNil
  | .custom _ hM hS => .custom hM hS ""

/-- A struct type: its fields' names and kinds in declaration order. -/
abbrev StructType := List (String × GoKind)

/-- A struct value: its fields' names and values in declaration order. -/
abbrev GoRecord := List (String × GoValue)

/-- `reflect.New(structType).Elem()`: a fresh zero record. -/
def zeroRecord (st : StructType) : GoRecord := st.map (fun p => (p.1, zeroValue p.2))

/-- `s.FieldByName(n).Set(v)`: replace the value of the field named `n`
(struct field names are unique, so updating the first match is exact). -/
def updateField : GoRecord → String → GoValue → GoRecord
  | [], _, _ => []
  | (m, w) :: t, n, v => if m = n then (m, v) :: t else (m, w) :: updateField t n v

/-- `v` is a value of kind `k`.  An `int` must fit the 64-bit range it is
stored in; a `custom` value carries exactly its kind's capabilities. -/
def matchesKind : GoValue → GoKind → Bool
  | .str _, .str => true
  | .int i, .int => decide (-(2 ^ 63) ≤ i ∧ i < 2 ^ 63)
  | .bool _, .bool => true
  | .float _, .float => true
  | .ptrNil, .ptr _ => true
  | .ptrSome v, .ptr k => matchesKind v k
  | .custom hM hS _, .custom _ hM' hS' => hM = hM' && hS = hS'
  | _, _ => false

/-- `v` is a well-typed value of `st`: same names in the same order, each value
of its field's kind. -/
def recordTyped : StructType → GoRecord → Bool
  | [], [] => true
  | (n, k) :: st, (m, v) :: r => n = m && matchesKind v k && recordTyped st r
  | _, _ => false

/-! ## strings.Split with a one-character separator -/

/-- `strings.Split` on a single-character separator, on the character list.
Never returns `[]`; splitting the empty list yields `[[]]`, as in Go. -/
def splitChar (c : Char) : List Char → List (List Char)
  | [] => [[]]
  | x :: xs =>
    match splitChar c xs with
    | [] => [[]]
    | g :: gs => if x = c then [] :: g :: gs else (x :: g) :: gs

/-- `strings.Split s (string of c)`. -/
def splitStr (c : Char) (s : String) : List String := (splitChar c s.data).map String.mk

/-! ## Decimal formatting and parsing (fmt `%d` / `%t` / `%f`, strconv) -/

/-- The character of the decimal digit `n < 10`. -/
def digitChar (n : Nat) : Char := Char.ofNat (48 + n)

/-- The decimal digits of `n` in front of `acc`, most significant first; the
fuel argument (any bound above `n`) makes the recursion structural. -/
def natDigitsCore : Nat → Nat → List Char → List Char
  | 0, _, acc => acc
  | fuel + 1, n, acc =>
    if n < 10 then digitChar n :: acc
    else natDigitsCore fuel (n / 10) (digitChar (n % 10) :: acc)

/-- The decimal digits of `n`, most significant first (no leading zeros). -/
def natDigits (n : Nat) : List Char := natDigitsCore (n + 1) n []

/-- The decimal rendering of `n : Nat`. -/
def formatNat (n : Nat) : String := String.mk (natDigits n)

/-- `fmt.Sprintf` `%d` of a signed integer (`field.Int()`). -/
def formatInt (i : Int) : String :=
  if i < 0 then "-" ++ formatNat i.natAbs else formatNat i.toNat

/-- Is `c` a decimal digit character. -/
def isDigitC (c : Char) : Bool := decide ('0' ≤ c) && decide (c ≤ '9')

/-- All characters are decimal digits. -/
def allDigits (l : List Char) : Bool := l.all isDigitC

/-- The value of a run of decimal digit characters. -/
def decDigitsVal (l : List Char) : Nat := l.foldl (fun a c => a * 10 + (c.toNat - 48)) 0

/-- A non-empty run of decimal digits, valued; `none` otherwise. -/
def parseNatDec (l : List Char) : Option Nat :=
  if l ≠ [] ∧ allDigits l = true then some (decDigitsVal l) else none

/-- `strconv.Atoi` (= `ParseInt(s, 10, 0)` with the 64-bit `int`): an optional
sign, then decimal digits; out-of-range input is an error (`ErrRange`). -/
def parseGoInt (s : String) : Option Int :=
  match s.data with
  | [] => none
  | c :: rest =>
    if c = '+' then
      (parseNatDec rest).bind fun n => if n ≤ 2 ^ 63 - 1 then some (n : Int) else none
    else if c = '-' then
      (parseNatDec rest).bind fun n => if n ≤ 2 ^ 63 then some (-(n : Int)) else none
    else
      (parseNatDec (c :: rest)).bind fun n => if n ≤ 2 ^ 63 - 1 then some (n : Int) else none

/-- `strconv.ParseBool`: the literal set it accepts. -/
def parseGoBool (s : String) : Option Bool :=
  if s = "1" ∨ s = "t" ∨ s = "T" ∨ s = "true" ∨ s = "TRUE" ∨ s = "True" then some true
  else if s = "0" ∨ s = "f" ∨ s = "F" ∨ s = "false" ∨ s = "FALSE" ∨ s = "False" then some false
  else none

/-- Fuelled binary logarithm (the fuel, any bound above `n`, makes the
recursion structural). -/
def log2Aux : Nat → Nat → Nat
  | 0, _ => 0
  | fuel + 1, n => if n ≥ 2 then log2Aux fuel (n / 2) + 1 else 0

/-- `Nat.log2`: the position of the highest set bit of `n > 0`. -/
def natLog2 (n : Nat) : Nat := log2Aux n n

/-- `2 ^ e` as an exact rational, for any integer `e`. -/
def pow2 (e : Int) : ℚ := if 0 ≤ e then ((2 ^ e.toNat : Nat) : ℚ) else 1 / ((2 ^ (-e).toNat : Nat) : ℚ)

/-- The floor of a rational (its numerator floor-divided by its denominator). -/
def ratFloor (q : ℚ) : Int := q.num.fdiv q.den

/-- The absolute value of a rational. -/
def ratAbs (q : ℚ) : ℚ := if q < 0 then -q else q

/-- Round a rational to the nearest integer, ties to even (the rounding of both
Go's binary-to-decimal formatting at a fixed precision and IEEE-754
decimal-to-binary conversion). -/
def rhe (q : ℚ) : Int :=
  let f := ratFloor q
  let r := q - (f : ℚ)
  if r < 1 / 2 then f else if 1 / 2 < r then f + 1 else if f % 2 = 0 then f else f + 1

/-- For `q > 0`, the unique `e` with `2 ^ e ≤ q < 2 ^ (e + 1)`. -/
def binExp (q : ℚ) : Int :=
  let e0 : Int := (natLog2 q.num.natAbs : Int) - (natLog2 q.den : Int)
  if pow2 e0 ≤ q then e0 else e0 - 1

/-- The nearest binary64 value to `q > 0` (ties to even, subnormals included);
`none` when `q` is out of the finite range (overflow, or underflow to zero),
as `strconv.ParseFloat` then reports `ErrRange`. -/
def nearestDoublePos (q : ℚ) : Option ℚ :=
  let e := binExp q
  let s : Int := if e < -1022 then -1074 else e - 52
  let m := rhe (q / pow2 s)
  if m = 0 then none
  else
    let r := (m : ℚ) * pow2 s
    if r < ((2 ^ 1024 : Nat) : ℚ) then some r else none

/-- The nearest binary64 value to `q` (IEEE round-to-nearest, ties to even). -/
def nearestDouble (q : ℚ) : Option ℚ :=
  if q = 0 then some 0
  else if q < 0 then (nearestDoublePos (-q)).map (fun x => -x)
  else nearestDoublePos q

/-- The digit-run / fraction fragment of `strconv.ParseFloat`'s grammar:
`digits [. digits]` with at least one digit, valued exactly.  (The exponent,
hexadecimal and inf/nan forms of `ParseFloat` are never produced by the
adapter's own output and are not modelled.) -/
def parseFloatChars (l : List Char) : Option ℚ :=
  match splitChar '.' l with
  | [ip] =>
    if ip ≠ [] ∧ allDigits ip = true then some ((decDigitsVal ip : ℚ)) else none
  | [ip, fp] =>
    if (ip ≠ [] ∨ fp ≠ []) ∧ allDigits ip = true ∧ allDigits fp = true then
      some ((decDigitsVal ip : ℚ) + (decDigitsVal fp : ℚ) / ((10 ^ fp.length : Nat) : ℚ))
    else none
  | _ => none

/-- `strconv.ParseFloat(s, 64)` on the decimal fragment: optional sign, exact
decimal value, then IEEE rounding to binary64. -/
def parseGoFloat (s : String) : Option ℚ :=
  match s.data with
  | '+' :: rest => (parseFloatChars rest).bind nearestDouble
  | '-' :: rest => (parseFloatChars rest).bind (fun q => nearestDouble (-q))
  | l => (parseFloatChars l).bind nearestDouble

/-- `fmt.Sprintf` `%f`: fixed-point, six fractional digits, correctly rounded
(ties to even), sign first. -/
def formatFloat (q : ℚ) : String :=
  let n := (rhe (ratAbs q * 1000000)).toNat
  let frac := natDigits (n % 1000000)
  (if q < 0 then "-" else "") ++ formatNat (n / 1000000) ++ "." ++
    String.mk (List.replicate (6 - frac.length) '0' ++ frac)

/-! ## The per-value codec (`marshalField` / `unmarshalField`) -/

/-- `marshalField` (adapter.go): render a field value as text, dispatching on
its kind.  `canAddr` is `field.CanAddr()`: the marshal/stringer capabilities
are consulted only through `field.Addr()`, guarded by it.  The element of a
pointer is always addressable, so the `Ptr` case recurses with `canAddr`
`true`. -/
def marshalField (canAddr : Bool) : GoValue → Except GoErr String
  | .str s => .ok s
  | .int i => .ok (formatInt i)
  | .bool b => .ok (if b then "true" else "false")
  | .float q => .ok (formatFloat q)
  | .ptrNil => .ok ""
  | .ptrSome v => marshalField true v
  | .custom hM hS payload =>
    if canAddr then
      if hM then .ok payload
      else if hS then .ok payload
      else .error [.unprocessableType]
    else .error [.unprocessableType]

/-- `unmarshalField` (adapter.go): decode text into a field of kind `k`.
In `FromCSV` the target record is freshly allocated and addressable; a `Ptr`
field is allocated and decoding recurses into its (addressable) element.  The
unmarshal capability is consulted only when `field.CanAddr()`. -/
def unmarshalField (canAddr : Bool) : GoKind → String → Except GoErr GoValue
  | .str, v => .ok (.str v)
  | .int, v =>
    match parseGoInt v with
    | some i => .ok (.int i)
    | none => .error [.parsingType]
  | .bool, v =>
    match parseGoBool v with
    | some b => .ok (.bool b)
    | none => .error [.parsingType]
  | .float, v =>
    match parseGoFloat v with
    | some q => .ok (.float q)
    | none => .error [.parsingType]
  | .ptr k, v => (unmarshalField true k v).map .ptrSome
  | .custom hU hM hS, v =>
    if canAddr && hU then .ok (.custom hM hS v) else .error [.unprocessableType]

/-! ## The schema builder (`NewCSVAdapter`) -/

/-- One compiled field descriptor: struct-field name, csv column alias,
omit-empty flag. -/
structure FieldDesc where
  name : String
  aliasName : String
  omitEmpty : Bool
  deriving DecidableEq

/-- The descriptor a field starts from: its name, the implicit alias (the
field's own name unless `noImplicitAlias`), no omit-empty. -/
def initFieldDesc (noImplicitAlias : Bool) (fieldName : String) : FieldDesc :=
  { name := fieldName
    aliasName := if noImplicitAlias then "" else fieldName
    omitEmpty := false }

/-- The per-field tag loop of `NewCSVAdapter`, over the comma-split parts.
`isAliasSet` records whether a bare positional part has set the alias.
`.ok none` is the `-` skip (`continue iterOverFields`); the final empty-alias
check yields `ErrAliasNotFound`.  The two-component and one-component splits
feed the same `switch key` with `value` empty in the one-component case. -/
def processTagParts : List String → FieldDesc → Bool → Except GoErr (Option FieldDesc)
  | [], fd, _ =>
    if fd.aliasName = "" then .error [.aliasNotFound, .info fd.name] else .ok (some fd)
  | p :: ps, fd, isAliasSet =>
    if p = "" then processTagParts ps fd isAliasSet
    else if p = "-" then .ok none
    else
      match splitStr '=' p with
      | [k] =>
        if k = "alias" then processTagParts ps { fd with aliasName := "" } isAliasSet
        else if k = "omitempty" then processTagParts ps { fd with omitEmpty := true } isAliasSet
        else if isAliasSet then .error [.unsupportedTag, .info p]
        else processTagParts ps { fd with aliasName := k } true
      | [k, v] =>
        if k = "alias" then processTagParts ps { fd with aliasName := v } isAliasSet
        else if k = "omitempty" then processTagParts ps { fd with omitEmpty := true } isAliasSet
        else if isAliasSet then .error [.unsupportedTag, .info p]
        else processTagParts ps { fd with aliasName := k } true
      | _ => .error [.invalidTag, .info p]

/-- Process one struct field's `csva` tag: `.ok none` means the field is
skipped, `.ok (some fd)` is its descriptor. -/
def processTag (noImplicitAlias : Bool) (fieldName tag : String) :
    Except GoErr (Option FieldDesc) :=
  processTagParts (splitStr ',' tag) (initFieldDesc noImplicitAlias fieldName) false

/-- The field loop of `NewCSVAdapter` over the struct's `(name, tag)` pairs in
declaration order (the `Kind() != reflect.Struct` guard precedes this loop and
is not at issue here).  The first invalid field aborts the build. -/
def buildFields (noImplicitAlias : Bool) : List (String × String) → Except GoErr (List FieldDesc)
  | [] => .ok []
  | (n, t) :: rest =>
    match processTag noImplicitAlias n t with
    | .error e => .error e
    | .ok none => buildFields noImplicitAlias rest
    | .ok (some fd) =>
      match buildFields noImplicitAlias rest with
      | .error e => .error e
      | .ok fds => .ok (fd :: fds)

/-! ## The row codec, read direction (`FromCSV`) -/

/-- The `columnsOrder` map: header, enumerated from `i`, under Go map-insert
semantics the last occurrence of an alias wins. -/
def colIndexFrom (a : String) (i : Nat) : List String → Option Nat
  | [] => none
  | h :: t =>
    match colIndexFrom a (i + 1) t with
    | some j => some j
    | none => if h = a then some i else none

/-- The column index of alias `a` in the header (last occurrence wins). -/
def colIndex (header : List String) (a : String) : Option Nat := colIndexFrom a 0 header

/-- The `ErrProcessingCSVLines`-joined `ReadingError` prefix every per-row
field error carries. -/
def rowFieldErr (line : Nat) (f : FieldDesc) : GoErr :=
  [.processingCSVLines, .readErr line f.name f.aliasName]

/-- `s.FieldByName(f.name)` followed by `unmarshalField`: a name absent from
the struct is reflect's invalid `Value`, whose default dispatch branch (not
addressable) reports `ErrUnprocessableType`. -/
def decodeCell (st : StructType) (f : FieldDesc) (value : String) : Except GoErr GoValue :=
  match st.lookup f.name with
  | none => .error [.unprocessableType]
  | some k => unmarshalField true k value

/-- The per-field loop of `FromCSV` for one data row: walk the field
descriptors in order over the accumulator record; any field failure yields the
zero record and the wrapped error for this row. -/
def decodeRow (st : StructType) (header : List String) (cells : List String) (line : Nat) :
    List FieldDesc → GoRecord → GoRecord × Option GoErr
  | [], acc => (acc, none)
  | f :: fs, acc =>
    match colIndex header f.aliasName with
    | none =>
      if f.omitEmpty then decodeRow st header cells line fs acc
      else (zeroRecord st, some (rowFieldErr line f ++ [.fieldNotFound]))
    | some idx =>
      let value := cells.getD idx ""
      if value = "" then
        if f.omitEmpty then decodeRow st header cells line fs acc
        else (zeroRecord st, some (rowFieldErr line f ++ [.emptyValue]))
      else
        match decodeCell st f value with
        | .error e => (zeroRecord st, some (rowFieldErr line f ++ e))
        | .ok v => decodeRow st header cells line fs (updateField acc f.name v)

/-- One `csvReader.Read` plus the row decode: a row whose cell count disagrees
with the header is `csv.ErrFieldCount`, yielded joined under
`ErrReadingCSVLines` with the zero record; otherwise the row is decoded. -/
def processRow (st : StructType) (fields : List FieldDesc) (header : List String)
    (line : Nat) (cells : List String) : GoRecord × Option GoErr :=
  if cells.length ≠ header.length then
    (zeroRecord st, some [.readingCSVLines, .fieldCount])
  else decodeRow st header cells line fields (zeroRecord st)

/-- The `iter.Seq2` producer of `FromCSV`: one `(record, error)` pair per data
row, line numbers from `line`; `k` is the consumer's `yield` continuation —
when it returns `false` the producer returns at once and reads no further
row. -/
def iterRows (st : StructType) (fields : List FieldDesc) (header : List String)
    (k : GoRecord × Option GoErr → Bool) (line : Nat) :
    List (List String) → List (GoRecord × Option GoErr)
  | [] => []
  | r :: rs =>
    let p := processRow st fields header line r
    if k p then p :: iterRows st fields header k (line + 1) rs else [p]

/-- The producer run to completion (a consumer that never stops). -/
def fullRun (st : StructType) (fields : List FieldDesc) (header : List String)
    (line : Nat) : List (List String) → List (GoRecord × Option GoErr)
  | [] => []
  | r :: rs => processRow st fields header line r :: fullRun st fields header (line + 1) rs

/-- Truncate a produced sequence at the first pair after which the consumer
stops. -/
def stopAfter (k : α → Bool) : List α → List α
  | [] => []
  | p :: ps => if k p then p :: stopAfter k ps else [p]

/-- `FromCSV`: the input is the parsed csv records (header row first, as
`csv.Reader.Read` returns them).  Empty input is the synchronous header-read
failure (`io.EOF` under `ErrReadingCSVLines`); a required (non-omit-empty)
field whose alias is missing from the header is the synchronous
`ErrFieldNotFound`; otherwise the lazy sequence is returned, here already run
against the consumer `k`. -/
def fromCSVGo (st : StructType) (fields : List FieldDesc)
    (k : GoRecord × Option GoErr → Bool) (input : List (List String)) :
    Except GoErr (List (GoRecord × Option GoErr)) :=
  match input with
  | [] => .error [.readingCSVLines]
  | header :: rows =>
    match fields.find? (fun f => !f.omitEmpty && (colIndex header f.aliasName).isNone) with
    | some f => .error [.fieldNotFound, .info f.aliasName]
    | none => .ok (iterRows st fields header k 1 rows)

/-! ## The row codec, write direction (`ToCSV`) -/

/-- The cell `ToCSV` computes before its empty-value check: a nil pointer
field leaves the cell at its zero value `""` (`continue`), anything else is
marshalled. -/
def writeCell (v : GoValue) : Except GoErr String :=
  if isNilPtr v then .ok "" else marshalField false v

/-- One field of one record in `ToCSV`'s write loop: a missing struct field
(`!field.IsValid()`) aborts with `ErrFieldNotFound`; a nil pointer leaves the
cell empty; an empty marshalled value is tolerated exactly when the field is
omit-empty, else `ErrEmptyValue`.  The record value is not addressable
(`reflect.ValueOf(item)`), so `marshalField` runs with `canAddr` `false`. -/
def marshalCell (f : FieldDesc) (r : GoRecord) (line : Nat) : Except GoErr String :=
  match r.lookup f.name with
  | none => .error (rowFieldErr line f ++ [.fieldNotFound])
  | some v =>
    if isNilPtr v then .ok ""
    else
      match marshalField false v with
      | .error e => .error (rowFieldErr line f ++ e)
      | .ok s =>
        if s = "" then
          if f.omitEmpty then .ok ""
          else .error (rowFieldErr line f ++ [.emptyValue])
        else .ok s

/-- One record's row: the field loop of `ToCSV`, first failure aborts. -/
def marshalRow (fields : List FieldDesc) (r : GoRecord) (line : Nat) :
    Except GoErr (List String) :=
  match fields with
  | [] => .ok []
  | f :: fs =>
    match marshalCell f r line with
    | .error e => .error e
    | .ok s =>
      match marshalRow fs r line with
      | .error e => .error e
      | .ok row => .ok (s :: row)

/-- The record loop of `ToCSV`: rows successfully handed to `csvWriter.Write`
before a failure are in the sink (the deferred `Flush` emits them); the first
failing record aborts the write, and no later record is rendered. -/
def toCSVRows (fields : List FieldDesc) (line : Nat) :
    List GoRecord → List (List String) × Option GoErr
  | [] => ([], none)
  | r :: rs =>
    match marshalRow fields r line with
    | .error e => ([], some e)
    | .ok row =>
      let (rows, err) := toCSVRows fields (line + 1) rs
      (row :: rows, err)

/-- `ToCSV`: the header row (the aliases in field order, when `writeHeader`,
which defaults to on) followed by the data rows written before any failure;
the second component is the error that aborted the write, if any. -/
def toCSVGo (writeHeader : Bool) (fields : List FieldDesc) (records : List GoRecord) :
    List (List String) × Option GoErr :=
  let (rows, err) := toCSVRows fields 1 records
  ((if writeHeader then [fields.map (fun f => f.aliasName)] else []) ++ rows, err)

/-! ## State-passing variants

`CSVAdapter.fields` is read by every loop iteration of `FromCSV` and `ToCSV`
and assigned by none.  The state-passing variants below thread the adapter's
field list through each iteration and return it alongside the call's result,
so that "the field list after the call" is a stated object. -/

/-- `iterRows`, threading the adapter's field list through each loop
iteration. -/
def iterRowsSt (st : StructType) (header : List String)
    (k : GoRecord × Option GoErr → Bool) (line : Nat) :
    List FieldDesc → List (List String) → List (GoRecord × Option GoErr) × List FieldDesc
  | fields, [] => ([], fields)
  | fields, r :: rs =>
    let p := processRow st fields header line r
    if k p then
      let (out, fields') := iterRowsSt st header k (line + 1) fields rs
      (p :: out, fields')
    else ([p], fields)

/-- `FromCSV` with the adapter's field list returned after the call. -/
def fromCSVSt (st : StructType) (fields : List FieldDesc)
    (k : GoRecord × Option GoErr → Bool) (input : List (List String)) :
    Except GoErr (List (GoRecord × Option GoErr)) × List FieldDesc :=
  match input with
  | [] => (.error [.readingCSVLines], fields)
  | header :: rows =>
    match fields.find? (fun f => !f.omitEmpty && (colIndex header f.aliasName).isNone) with
    | some f => (.error [.fieldNotFound, .info f.aliasName], fields)
    | none =>
      let (out, fields') := iterRowsSt st header k 1 fields rows
      (.ok out, fields')

/-- `toCSVRows`, threading the adapter's field list through each loop
iteration. -/
def toCSVRowsSt (line : Nat) :
    List FieldDesc → List GoRecord → (List (List String) × Option GoErr) × List FieldDesc
  | fields, [] => (([], none), fields)
  | fields, r :: rs =>
    match marshalRow fields r line with
    | .error e => (([], some e), fields)
    | .ok row =>
      let ((rows, err), fields') := toCSVRowsSt (line + 1) fields rs
      ((row :: rows, err), fields')

/-- `ToCSV` with the adapter's field list returned after the call. -/
def toCSVSt (writeHeader : Bool) (fields : List FieldDesc) (records : List GoRecord) :
    (List (List String) × Option GoErr) × List FieldDesc :=
  let ((rows, err), fields') := toCSVRowsSt 1 fields records
  (((if writeHeader then [fields.map (fun f => f.aliasName)] else []) ++ rows, err), fields')

/-! ## Spec-side alias resolution -/

/-- Modelled from the spec's amended alias policy, for comparison with
`processTagParts`: scanning the tag parts left to right, the alias is the
last value assigned — by an `alias=value` part, or by a bare part that is
neither `alias` nor `omitempty` (at most one such part exists in an accepted
tag) — seeded with the implicit alias. -/
def aliasLastWrite (seed : String) : List String → String
  | [] => seed
  | p :: ps =>
    if p = "" then aliasLastWrite seed ps
    else
      match splitStr '=' p with
      | [k] =>
        if k = "alias" then aliasLastWrite "" ps
        else if k = "omitempty" then aliasLastWrite seed ps
        else aliasLastWrite k ps
      | [k, v] =>
        if k = "alias" then aliasLastWrite v ps
        else if k = "omitempty" then aliasLastWrite seed ps
        else aliasLastWrite k ps
      | _ => aliasLastWrite seed ps

/-! ## Round-trip side conditions -/

/-- Kinds the round-trip law covers: the primitive kinds and pointers to
them (no `custom` kind anywhere). -/
def kindNoCustom : GoKind → Bool
  | .str => true
  | .int => true
  | .bool => true
  | .float => true
  | .ptr k => kindNoCustom k
  | .custom _ _ _ => false

/-- Every float inside the value survives the `%f` / `ParseFloat` round trip
exactly. -/
def floatRT : GoValue → Bool
  | .float q => decide (parseGoFloat (formatFloat q) = some q)
  | .ptrSome v => floatRT v
  | _ => true

/-- The cell `ToCSV` emits for field `f` of record `r` when the write
succeeds: empty for a missing field, a nil pointer, or an empty marshal
output (tolerated only when omit-empty); otherwise the marshalled text. -/
def cellOf (f : FieldDesc) (r : GoRecord) : String :=
  match r.lookup f.name with
  | none => ""
  | some v => if isNilPtr v then "" else (marshalField false v).toOption.getD ""

/-- One field of the row-decode loop as a pure record transformer: an empty
cell leaves the accumulator (omit-empty skip), anything else stores the
original record's value for that field. -/
def decodeStep (r : GoRecord) (acc : GoRecord) (f : FieldDesc) : GoRecord :=
  if cellOf f r = "" then acc
  else updateField acc f.name ((r.lookup f.name).getD GoValue.ptrNil)

/-- The round-trip side condition on one field of one record: the field is
present in record and struct type with a well-typed value of a covered
(custom-free) kind, every float in the value survives the six-digit fixed
round trip, and if the written cell would be empty the field is omit-empty
and holds its zero value. -/
def fieldValOK (st : StructType) (f : FieldDesc) (r : GoRecord) : Prop :=
  ∃ v k, r.lookup f.name = some v ∧ st.lookup f.name = some k
    ∧ matchesKind v k = true ∧ kindNoCustom k = true ∧ floatRT v = true
    ∧ (writeCell v = .ok "" → f.omitEmpty = true ∧ v = zeroValue k)

instance {ε α : Type} [DecidableEq ε] [DecidableEq α] : DecidableEq (Except ε α) := fun x y =>
  match x, y with
  | .error e, .error e' => decidable_of_iff (e = e') (by simp)
  | .ok a, .ok a' => decidable_of_iff (a = a') (by simp)
  | .error _, .ok _ => .isFalse (fun h => Except.noConfusion h)
  | .ok _, .error _ => .isFalse (fun h => Except.noConfusion h)

/-! ## The iteration contract and the field-list invariant -/

theorem iterRows_eq_stopAfter (st : StructType) (fields : List FieldDesc)
    (header : List String) (k : GoRecord × Option GoErr → Bool) :
    ∀ (rows : List (List String)) (line : Nat),
      iterRows st fields header k line rows = stopAfter k (fullRun st fields header line rows)
  | [], _ => rfl
  | r :: rs, line => by
    simp only [iterRows, fullRun, stopAfter]
    rw [iterRows_eq_stopAfter st fields header k rs (line + 1)]

theorem fullRun_append (st : StructType) (fields : List FieldDesc) (header : List String) :
    ∀ (xs ys : List (List String)) (line : Nat),
      fullRun st fields header line (xs ++ ys)
        = fullRun st fields header line xs ++ fullRun st fields header (line + xs.length) ys
  | [], _, _ => by simp [fullRun]
  | x :: xs, ys, line => by
    show processRow st fields header line x :: fullRun st fields header (line + 1) (xs ++ ys) = _
    rw [fullRun_append st fields header xs ys (line + 1)]
    simp only [fullRun, List.length_cons, List.cons_append]
    congr 3
    omega

theorem iterRowsSt_fields (st : StructType) (header : List String)
    (k : GoRecord × Option GoErr → Bool) (fields : List FieldDesc) :
    ∀ (rows : List (List String)) (line : Nat),
      (iterRowsSt st header k line fields rows).2 = fields
  | [], _ => rfl
  | r :: rs, line => by
    simp only [iterRowsSt]
    split
    · simp [iterRowsSt_fields st header k fields rs (line + 1)]
    · rfl

theorem toCSVRowsSt_fields (fields : List FieldDesc) :
    ∀ (records : List GoRecord) (line : Nat), (toCSVRowsSt line fields records).2 = fields
  | [], _ => rfl
  | r :: rs, line => by
    simp only [toCSVRowsSt]
    split
    · rfl
    · simp [toCSVRowsSt_fields fields rs (line + 1)]

/-- C9.  The adapter's field-descriptor list is an invariant of every
operation: threading it through each loop iteration of the read producer, the
full `FromCSV` call (on any input, succeeding or failing), the write loop, and
the full `ToCSV` call, the list after the call is identical (names, aliases,
omit-empty flags, order) to the list before it.  It is computed once by
`buildFields` at construction and never changed. -/
theorem c9_fields_invariant (st : StructType) (fields : List FieldDesc)
    (header : List String) (k : GoRecord × Option GoErr → Bool) (line : Nat)
    (rows input : List (List String)) (records : List GoRecord) (wh : Bool) :
    (iterRowsSt st header k line fields rows).2 = fields
      ∧ (fromCSVSt st fields k input).2 = fields
      ∧ (toCSVRowsSt line fields records).2 = fields
      ∧ (toCSVSt wh fields records).2 = fields := by
  refine ⟨iterRowsSt_fields st header k fields rows line, ?_,
    toCSVRowsSt_fields fields records line, ?_⟩
  · match input with
    | [] => rfl
    | h :: rs =>
      simp only [fromCSVSt]
      split
      · rfl
      · simp [iterRowsSt_fields st h k fields rs 1]
  · simp [toCSVSt, toCSVRowsSt_fields fields records 1]

/-- C7.  Per-row failures are per-row, not terminal, and cancellation is
immediate: (i) the producer driven by a consumer `k` yields exactly the full
per-row run truncated at the first pair after which `k` stops — rows after
the stop are never read; (ii) the full run over concatenated input splits
pointwise, so each row (in particular every well-formed row after a bad one)
is processed independently of the rows before it; (iii) a row whose cell
count disagrees with the header is yielded as the zero record paired with the
`ErrReadingCSVLines`-joined field-count error. -/
theorem c7_row_errors_and_cancellation (st : StructType) (fields : List FieldDesc)
    (header : List String) (k : GoRecord × Option GoErr → Bool) (line : Nat)
    (rows xs ys : List (List String)) (cells : List String) :
    iterRows st fields header k line rows = stopAfter k (fullRun st fields header line rows)
      ∧ fullRun st fields header line (xs ++ ys)
          = fullRun st fields header line xs ++ fullRun st fields header (line + xs.length) ys
      ∧ (cells.length ≠ header.length →
          processRow st fields header line cells
            = (zeroRecord st, some [.readingCSVLines, .fieldCount])) := by
  refine ⟨iterRows_eq_stopAfter st fields header k rows line,
    fullRun_append st fields header xs ys line, fun h => ?_⟩
  simp [processRow, h]

/-- C7 witness: a two-cell row against a three-column header is yielded as
the zero record with the field-count error. -/
theorem c7_witness :
    processRow [("Name", GoKind.str)] [⟨"Name", "name", false⟩] ["name", "age", "email"]
        1 ["John", "30"]
      = (zeroRecord [("Name", GoKind.str)], some [.readingCSVLines, .fieldCount]) :=
  (c7_row_errors_and_cancellation [("Name", GoKind.str)] [⟨"Name", "name", false⟩]
    ["name", "age", "email"] (fun _ => true) 1 [] [] [] ["John", "30"]).2.2 (by decide)

/-! ## C6: the synchronous header check of FromCSV -/

/-- C6.  With a header row present: if some non-omit-empty field's alias is
absent from the header, `FromCSV` fails synchronously with an error carrying
`ErrFieldNotFound` and no sequence is constructed; if every non-omit-empty
field's alias is present — omit-empty fields may be absent entirely — the
sequence is returned. -/
theorem c6_missing_required_column (st : StructType) (fields : List FieldDesc)
    (k : GoRecord × Option GoErr → Bool) (header : List String)
    (rows : List (List String)) :
    ((∃ f ∈ fields, f.omitEmpty = false ∧ colIndex header f.aliasName = none) →
      ∃ e, fromCSVGo st fields k (header :: rows) = .error e ∧ GoBaseErr.fieldNotFound ∈ e)
      ∧ ((∀ f ∈ fields, f.omitEmpty = false → (colIndex header f.aliasName).isSome = true) →
        fromCSVGo st fields k (header :: rows) = .ok (iterRows st fields header k 1 rows)) := by
  constructor
  · rintro ⟨f, hf, homit, hcol⟩
    have hsome : (fields.find? (fun f => !f.omitEmpty && (colIndex header f.aliasName).isNone)).isSome := by
      rw [List.find?_isSome]
      exact ⟨f, hf, by simp [homit, hcol]⟩
    obtain ⟨g, hg⟩ := Option.isSome_iff_exists.mp hsome
    refine ⟨[.fieldNotFound, .info g.aliasName], ?_, by simp⟩
    simp only [fromCSVGo, hg]
  · intro hall
    have hnone : fields.find? (fun f => !f.omitEmpty && (colIndex header f.aliasName).isNone) = none := by
      rw [List.find?_eq_none]
      intro f hf
      by_cases homit : f.omitEmpty
      · simp [homit]
      · have := hall f hf (by simpa using homit)
        simp only [Bool.and_eq_true, Bool.not_eq_true', Option.isNone_iff_eq_none]
        rintro ⟨-, hnone⟩
        rw [hnone] at this
        simp at this
    simp only [fromCSVGo, hnone]

/-- C6 witness: with the `email` column missing, a required `email` field
fails the call with `ErrFieldNotFound`, while an omit-empty `email` field is
tolerated and the sequence is produced. -/
theorem c6_witness :
    (∃ e, fromCSVGo [("Email", GoKind.str)] [⟨"Email", "email", false⟩] (fun _ => true)
        [["name"], ["John"]] = .error e ∧ GoBaseErr.fieldNotFound ∈ e)
      ∧ fromCSVGo [("Email", GoKind.str)] [⟨"Email", "email", true⟩] (fun _ => true)
          [["name"], ["John"]]
          = .ok (iterRows [("Email", GoKind.str)] [⟨"Email", "email", true⟩]
              ["name"] (fun _ => true) 1 [["John"]]) :=
  ⟨(c6_missing_required_column [("Email", GoKind.str)] [⟨"Email", "email", false⟩]
      (fun _ => true) ["name"] [["John"]]).1
      ⟨⟨"Email", "email", false⟩, by decide, by decide, by decide⟩,
    (c6_missing_required_column [("Email", GoKind.str)] [⟨"Email", "email", true⟩]
      (fun _ => true) ["name"] [["John"]]).2 (by decide)⟩

/-! ## C10: by-value custom kinds cannot be marshalled -/

/-- C10.  A field of a non-primitive, non-pointer kind held by value always
fails `ToCSV` encoding with `ErrUnprocessableType`, whatever textual
capabilities its type implements, because both capabilities are consulted
only through `field.Addr()` and the fields of `reflect.ValueOf(item)` are not
addressable; the same value reached through a pointer field (whose element is
addressable) marshals successfully via its capability. -/
theorem c10_byvalue_custom_unprocessable (hM hS : Bool) (payload name al : String) :
    marshalField false (.custom hM hS payload) = .error [.unprocessableType]
      ∧ marshalField false (.ptrSome (.custom true hS payload)) = .ok payload
      ∧ toCSVGo true [⟨name, al, false⟩] [[(name, GoValue.custom hM hS payload)]]
          = ([[al]], some (rowFieldErr 1 ⟨name, al, false⟩ ++ [.unprocessableType])) := by
  refine ⟨rfl, rfl, ?_⟩
  simp [toCSVGo, toCSVRows, marshalRow, marshalCell, List.lookup, isNilPtr, marshalField]

/-! ## C2–C5: the tag grammar and alias resolution -/

/-- C2 counterexample: in the tag `alias=foo,bar` the explicit `alias=foo`
segment does not override the later bare positional segment — the resolved
alias is `bar`, not `foo` (the `alias` key assignment leaves `isAliasSet`
unset, so a later bare segment overwrites it). -/
theorem c2_alias_precedence_counterexample :
    processTag false "Field" "alias=foo,bar"
        = .ok (some ⟨"Field", "bar", false⟩)
      ∧ processTag false "Field" "alias=foo,bar"
          ≠ .ok (some ⟨"Field", "foo", false⟩) := by
  constructor
  · decide
  · decide

theorem processTagParts_alias_eq_lastWrite :
    ∀ (ps : List String) (fd : FieldDesc) (b : Bool) (fd' : FieldDesc),
      processTagParts ps fd b = .ok (some fd') →
        fd'.aliasName = aliasLastWrite fd.aliasName ps
  | [], fd, b, fd' => by
    intro h
    simp only [processTagParts] at h
    split at h
    · exact absurd h (by simp)
    · simp only [Except.ok.injEq, Option.some.injEq] at h
      rw [← h]
      rfl
  | p :: ps, fd, b, fd' => by
    intro h
    by_cases hpe : p = ""
    · simp only [processTagParts, if_pos hpe] at h
      simp only [aliasLastWrite, if_pos hpe]
      exact processTagParts_alias_eq_lastWrite ps fd b fd' h
    · by_cases hpd : p = "-"
      · simp only [processTagParts, if_neg hpe, if_pos hpd] at h
        simp at h
      · simp only [processTagParts, if_neg hpe, if_neg hpd] at h
        simp only [aliasLastWrite, if_neg hpe]
        cases hsp : splitStr '=' p with
        | nil =>
          rw [hsp] at h
          simp at h
        | cons k tl =>
          cases tl with
          | nil =>
            rw [hsp] at h
            dsimp only [] at h ⊢
            by_cases hka : k = "alias"
            · rw [if_pos hka] at h ⊢
              exact processTagParts_alias_eq_lastWrite ps _ b fd' h
            · rw [if_neg hka] at h ⊢
              by_cases hko : k = "omitempty"
              · rw [if_pos hko] at h ⊢
                exact processTagParts_alias_eq_lastWrite ps
                  { fd with omitEmpty := true } b fd' h
              · rw [if_neg hko] at h ⊢
                cases b with
                | true => simp at h
                | false => exact processTagParts_alias_eq_lastWrite ps _ true fd' h
          | cons v tl2 =>
            cases tl2 with
            | nil =>
              rw [hsp] at h
              dsimp only [] at h ⊢
              by_cases hka : k = "alias"
              · rw [if_pos hka] at h ⊢
                exact processTagParts_alias_eq_lastWrite ps _ b fd' h
              · rw [if_neg hka] at h ⊢
                by_cases hko : k = "omitempty"
                · rw [if_pos hko] at h ⊢
                  exact processTagParts_alias_eq_lastWrite ps
                    { fd with omitEmpty := true } b fd' h
                · rw [if_neg hko] at h ⊢
                  cases b with
                  | true => simp at h
                  | false => exact processTagParts_alias_eq_lastWrite ps _ true fd' h
            | cons w tl3 =>
              rw [hsp] at h
              simp at h

/-- C2 amended: alias resolution is last-write-wins, not a fixed precedence —
whenever a tag is accepted, the resolved alias equals the value of the last
alias assignment among the parts scanned left to right (`alias=value` parts
and the bare positional part both assign), seeded with the implicit field
name (empty when implicit aliasing is disabled).  In particular an
`alias=value` segment overrides the implicit and any earlier assignment, but
a bare positional segment appearing after it overrides it in turn. -/
theorem c2_alias_last_write (noImplicitAlias : Bool) (fieldName tag : String)
    (fd : FieldDesc) (h : processTag noImplicitAlias fieldName tag = .ok (some fd)) :
    fd.aliasName
      = aliasLastWrite (initFieldDesc noImplicitAlias fieldName).aliasName (splitStr ',' tag) :=
  processTagParts_alias_eq_lastWrite _ _ _ _ h

/-- C2 witness: the accepted tag `alias=a,b` resolves to the last write `b`. -/
theorem c2_witness :
    ("b" : String)
      = aliasLastWrite (initFieldDesc false "F").aliasName (splitStr ',' "alias=a,b") :=
  c2_alias_last_write false "F" "alias=a,b" ⟨"F", "b", false⟩ (by decide)

/-- C3 counterexample: the tag `a=b=c,-` contains the skip part `-` among its
comma-split parts, yet construction is not a skip: the invalid part `a=b=c`
preceding it is processed first and aborts with `ErrInvalidTag`. -/
theorem c3_skip_counterexample :
    processTag false "F" "a=b=c,-" = .error [.invalidTag, .info "a=b=c"]
      ∧ processTag false "F" "a=b=c,-" ≠ .ok none := by
  constructor
  · decide
  · decide

/-- C3 amended: the `-` part skips the field only once reached — if the parts
before the first `-` all process cleanly (here: processing them alone would
not error), the field is skipped with no tag error, whatever follows. -/
theorem c3_skip_after_clean_parts :
    ∀ (pre : List String) (rest : List String) (fd : FieldDesc) (b : Bool),
      (∃ d, processTagParts pre fd b = .ok d) →
        processTagParts (pre ++ "-" :: rest) fd b = .ok none
  | [], rest, fd, b => fun _ => rfl
  | p :: ps, rest, fd, b => by
    rintro ⟨d, hd⟩
    by_cases hpe : p = ""
    · simp only [processTagParts, if_pos hpe] at hd
      show processTagParts (p :: (ps ++ "-" :: rest)) fd b = .ok none
      simp only [processTagParts, if_pos hpe]
      exact c3_skip_after_clean_parts ps rest fd b ⟨d, hd⟩
    · by_cases hpd : p = "-"
      · show processTagParts (p :: (ps ++ "-" :: rest)) fd b = .ok none
        simp only [processTagParts, if_neg hpe, if_pos hpd]
      · simp only [processTagParts, if_neg hpe, if_neg hpd] at hd
        show processTagParts (p :: (ps ++ "-" :: rest)) fd b = .ok none
        simp only [processTagParts, if_neg hpe, if_neg hpd]
        cases hsp : splitStr '=' p with
        | nil =>
          rw [hsp] at hd
          simp at hd
        | cons k tl =>
          cases tl with
          | nil =>
            rw [hsp] at hd
            dsimp only [] at hd ⊢
            by_cases hka : k = "alias"
            · rw [if_pos hka] at hd ⊢
              exact c3_skip_after_clean_parts ps rest _ b ⟨d, hd⟩
            · rw [if_neg hka] at hd ⊢
              by_cases hko : k = "omitempty"
              · rw [if_pos hko] at hd ⊢
                exact c3_skip_after_clean_parts ps rest _ b ⟨d, hd⟩
              · rw [if_neg hko] at hd ⊢
                cases b with
                | true => simp at hd
                | false => exact c3_skip_after_clean_parts ps rest _ true ⟨d, hd⟩
          | cons v tl2 =>
            cases tl2 with
            | nil =>
              rw [hsp] at hd
              dsimp only [] at hd ⊢
              by_cases hka : k = "alias"
              · rw [if_pos hka] at hd ⊢
                exact c3_skip_after_clean_parts ps rest _ b ⟨d, hd⟩
              · rw [if_neg hka] at hd ⊢
                by_cases hko : k = "omitempty"
                · rw [if_pos hko] at hd ⊢
                  exact c3_skip_after_clean_parts ps rest _ b ⟨d, hd⟩
                · rw [if_neg hko] at hd ⊢
                  cases b with
                  | true => simp at hd
                  | false => exact c3_skip_after_clean_parts ps rest _ true ⟨d, hd⟩
            | cons w tl3 =>
              rw [hsp] at hd
              simp at hd

/-- C3 witness: after the clean part `name`, the `-` part skips the field
even with further (would-be-invalid) parts after it. -/
theorem c3_witness :
    processTagParts (["name"] ++ "-" :: ["a=b=c"]) (initFieldDesc false "F") false
      = .ok none :=
  c3_skip_after_clean_parts ["name"] ["a=b=c"] (initFieldDesc false "F") false
    ⟨some ⟨"F", "name", false⟩, by decide⟩

/-- C4 counterexample: the tag `omitempty=true` does not fail construction —
the `key=value` split has key `omitempty`, which the switch accepts, setting
the omit-empty flag (and leaving the implicit alias). -/
theorem c4_omitempty_kv_counterexample :
    processTag false "F" "omitempty=true" = .ok (some ⟨"F", "F", true⟩) := by
  decide

/-- C4 amended: a tag part whose `=`-split is `omitempty=<value>` is silently
accepted, not rejected: processing it just sets the omit-empty flag (the
value is ignored) and continues with the remaining parts; no `ErrInvalidTag`
is reported. -/
theorem c4_omitempty_kv_accepted (p v : String) (ps : List String) (fd : FieldDesc)
    (b : Bool) (hp0 : p ≠ "") (hp1 : p ≠ "-")
    (hsplit : splitStr '=' p = ["omitempty", v]) :
    processTagParts (p :: ps) fd b = processTagParts ps { fd with omitEmpty := true } b := by
  simp only [processTagParts, if_neg hp0, if_neg hp1, hsplit]
  simp

/-- C4 witness: the concrete part `omitempty=true` reduces to flag-setting. -/
theorem c4_witness :
    processTagParts ["omitempty=true"] (initFieldDesc false "F") false
      = processTagParts [] { initFieldDesc false "F" with omitEmpty := true } false :=
  c4_omitempty_kv_accepted "omitempty=true" "true" [] (initFieldDesc false "F") false
    (by decide) (by decide) (by decide)

/-- C5 counterexample: two distinct fields resolving to the same alias `x`
build successfully — `NewCSVAdapter` returns the adapter, not a configuration
error. -/
theorem c5_duplicate_alias_counterexample :
    buildFields false [("Name", "x"), ("Age", "x")]
      = .ok [⟨"Name", "x", false⟩, ⟨"Age", "x", false⟩] := by
  decide

/-- C5 amended: adapter construction performs no alias-uniqueness check —
whenever each of two fields' tags is individually accepted, the build
succeeds even if the two resolved aliases coincide (on read, both fields are
then served by the same, last, header column). -/
theorem c5_no_uniqueness_check (noImplicitAlias : Bool) (n1 t1 n2 t2 : String)
    (d1 d2 : FieldDesc) (h1 : processTag noImplicitAlias n1 t1 = .ok (some d1))
    (h2 : processTag noImplicitAlias n2 t2 = .ok (some d2))
    (hdup : d1.aliasName = d2.aliasName) :
    buildFields noImplicitAlias [(n1, t1), (n2, t2)] = .ok [d1, d2] := by
  simp [buildFields, h1, h2]

/-- C5 witness: two fields with the duplicate alias `x` build to the two
descriptors. -/
theorem c5_witness :
    buildFields false [("A", "x"), ("B", "alias=x")]
      = .ok [⟨"A", "x", false⟩, ⟨"B", "x", false⟩] :=
  c5_no_uniqueness_check false "A" "x" "B" "alias=x" ⟨"A", "x", false⟩ ⟨"B", "x", false⟩
    (by decide) (by decide) (by decide)

/-! ## C8: an empty non-omit-empty value aborts the whole write -/

theorem marshalCell_empty (f : FieldDesc) (r : GoRecord) (line : Nat) (v : GoValue)
    (homit : f.omitEmpty = false) (hv : r.lookup f.name = some v)
    (hnil : isNilPtr v = false) (hempty : marshalField false v = .ok "") :
    marshalCell f r line = .error (rowFieldErr line f ++ [.emptyValue]) := by
  simp [marshalCell, hv, hnil, hempty, homit]

theorem marshalRow_error_at (f : FieldDesc) (r : GoRecord) (line : Nat) (e : GoErr) :
    ∀ (fpre : List FieldDesc) (fpost : List FieldDesc),
      (∀ f' ∈ fpre, ∃ s, marshalCell f' r line = .ok s) →
      marshalCell f r line = .error e →
      marshalRow (fpre ++ f :: fpost) r line = .error e
  | [], fpost, _, herr => by simp only [List.nil_append, marshalRow, herr]
  | f' :: fpre', fpost, hpre, herr => by
    obtain ⟨s, hs⟩ := hpre f' (List.mem_cons_self _ _)
    have ih := marshalRow_error_at f r line e fpre' fpost
      (fun g hg => hpre g (List.mem_cons_of_mem _ hg)) herr
    simp only [List.cons_append, marshalRow, List.append_eq, hs, ih]

theorem toCSVRows_ok (fields : List FieldDesc) :
    ∀ (good : List GoRecord) (line : Nat),
      (∀ i r', good.get? i = some r' → ∃ row, marshalRow fields r' (line + i) = .ok row) →
      (toCSVRows fields line good).2 = none
        ∧ (toCSVRows fields line good).1.length = good.length
  | [], _, _ => ⟨rfl, rfl⟩
  | g :: good', line, hgood => by
    obtain ⟨row, hrow⟩ := hgood 0 g rfl
    rw [Nat.add_zero] at hrow
    have ih := toCSVRows_ok fields good' (line + 1)
      (fun i r' hi => by
        obtain ⟨w, hw⟩ := hgood (i + 1) r' hi
        exact ⟨w, by rw [← hw]; congr 1; omega⟩)
    simp only [toCSVRows, hrow]
    constructor
    · simpa using ih.1
    · simpa using ih.2

theorem toCSVRows_stop (fields : List FieldDesc) (bad : GoRecord)
    (rest : List GoRecord) (e : GoErr) :
    ∀ (good : List GoRecord) (line : Nat),
      (∀ i r', good.get? i = some r' → ∃ row, marshalRow fields r' (line + i) = .ok row) →
      marshalRow fields bad (line + good.length) = .error e →
      toCSVRows fields line (good ++ bad :: rest)
        = ((toCSVRows fields line good).1, some e)
  | [], line, _, hbad => by
    simp only [List.length_nil, Nat.add_zero] at hbad
    simp only [List.nil_append, toCSVRows, hbad]
  | g :: good', line, hgood, hbad => by
    obtain ⟨row, hrow⟩ := hgood 0 g rfl
    rw [Nat.add_zero] at hrow
    have ih := toCSVRows_stop fields bad rest e good' (line + 1)
      (fun i r' hi => by
        obtain ⟨w, hw⟩ := hgood (i + 1) r' hi
        exact ⟨w, by rw [← hw]; congr 1; omega⟩)
      (by rw [← hbad]; congr 1; simp only [List.length_cons]; omega)
    simp only [List.cons_append, toCSVRows, List.append_eq, hrow, ih]

/-- C8.  If every record before position `k` (1-based line `k`) writes
cleanly and the record at position `k` has a non-omit-empty field whose value
is not a nil pointer and marshals to the empty string (the fields before it in
field order writing cleanly), then `ToCSV` fails the whole write with the
`ErrEmptyValue`-joined error for that line: the sink holds exactly the header
and the `k - 1` rows already written — they are not rolled back — and no row
at or after the failing record is written. -/
theorem c8_empty_value_aborts_write (fields fpre fpost : List FieldDesc) (f : FieldDesc)
    (good rest : List GoRecord) (bad : GoRecord) (v : GoValue)
    (hsplit : fields = fpre ++ f :: fpost)
    (hgood : ∀ i r', good.get? i = some r' → ∃ row, marshalRow fields r' (1 + i) = .ok row)
    (hpre : ∀ f' ∈ fpre, ∃ s, marshalCell f' bad (good.length + 1) = .ok s)
    (homit : f.omitEmpty = false)
    (hv : bad.lookup f.name = some v) (hnil : isNilPtr v = false)
    (hempty : marshalField false v = .ok "") :
    toCSVGo true fields (good ++ bad :: rest)
        = ((fields.map (fun g => g.aliasName)) :: (toCSVRows fields 1 good).1,
            some (rowFieldErr (good.length + 1) f ++ [.emptyValue]))
      ∧ (toCSVRows fields 1 good).2 = none
      ∧ (toCSVRows fields 1 good).1.length = good.length := by
  have hcell := marshalCell_empty f bad (good.length + 1) v homit hv hnil hempty
  have hrow : marshalRow fields bad (1 + good.length)
      = .error (rowFieldErr (good.length + 1) f ++ [.emptyValue]) := by
    rw [hsplit, Nat.add_comm 1 good.length]
    exact marshalRow_error_at f bad (good.length + 1) _ fpre fpost hpre hcell
  have hstop := toCSVRows_stop fields bad rest _ good 1 hgood hrow
  have hok := toCSVRows_ok fields good 1 hgood
  refine ⟨?_, hok.1, hok.2⟩
  simp only [toCSVGo, hstop]
  rfl

/-- C8 witness: with records `[good, bad, after]` where `bad` has an empty
non-omit-empty `Name`, the sink receives exactly the header and the one good
row, and the write aborts with the `ErrEmptyValue` error for line 2. -/
theorem c8_witness :
    toCSVGo true [⟨"Name", "name", false⟩]
        ([[("Name", GoValue.str "A")]] ++ [("Name", GoValue.str "")]
          :: [[("Name", GoValue.str "C")]])
      = ([["name"], ["A"]],
          some (rowFieldErr 2 ⟨"Name", "name", false⟩ ++ [.emptyValue])) := by
  have h := c8_empty_value_aborts_write [⟨"Name", "name", false⟩] [] []
    ⟨"Name", "name", false⟩ [[("Name", GoValue.str "A")]] [[("Name", GoValue.str "C")]]
    [("Name", GoValue.str "")] (GoValue.str "") rfl
    (fun i r' hi => by
      match i, hi with
      | 0, hi =>
        refine ⟨["A"], ?_⟩
        simp at hi
        subst hi
        decide)
    (fun f' hf' => absurd hf' (List.not_mem_nil f'))
    rfl rfl rfl rfl
  rw [h.1]
  decide

theorem digitChar_toNat {d : Nat} (h : d < 10) : (digitChar d).toNat = 48 + d := by
  interval_cases d <;> decide

theorem isDigitC_digitChar {d : Nat} (h : d < 10) : isDigitC (digitChar d) = true := by
  interval_cases d <;> decide

theorem natDigitsCore_acc :
    ∀ (fuel n : Nat) (acc : List Char), n < fuel →
      natDigitsCore fuel n acc = natDigitsCore fuel n [] ++ acc
  | 0, n, _, h => absurd h (Nat.not_lt_zero n)
  | fuel + 1, n, acc, h => by
    simp only [natDigitsCore]
    split
    · simp
    · next h10 =>
      have hlt : n / 10 < fuel := by
        have : n / 10 < n := Nat.div_lt_self (by omega) (by omega)
        omega
      rw [natDigitsCore_acc fuel (n / 10) (digitChar (n % 10) :: acc) hlt,
        natDigitsCore_acc fuel (n / 10) [digitChar (n % 10)] hlt]
      simp

theorem natDigitsCore_fuel :
    ∀ (fuel fuel' n : Nat) (acc : List Char), n < fuel → n < fuel' →
      natDigitsCore fuel n acc = natDigitsCore fuel' n acc
  | 0, _, n, _, h, _ => absurd h (Nat.not_lt_zero n)
  | _ + 1, 0, n, _, _, h' => absurd h' (Nat.not_lt_zero n)
  | fuel + 1, fuel' + 1, n, acc, h, h' => by
    simp only [natDigitsCore]
    split
    · rfl
    · next h10 =>
      have hd : n / 10 < n := Nat.div_lt_self (by omega) (by omega)
      exact natDigitsCore_fuel fuel fuel' (n / 10) _ (by omega) (by omega)

theorem natDigits_eq (n : Nat) :
    natDigits n = if n < 10 then [digitChar n] else natDigits (n / 10) ++ [digitChar (n % 10)] := by
  rw [natDigits]
  show natDigitsCore (n + 1) n [] = _
  rw [natDigitsCore]
  split
  · rfl
  · next h10 =>
    have hd : n / 10 < n := Nat.div_lt_self (by omega) (by omega)
    rw [natDigitsCore_acc n (n / 10) [digitChar (n % 10)] (by omega),
      natDigitsCore_fuel n (n / 10 + 1) (n / 10) [] (by omega) (by omega)]
    rfl

theorem natDigits_all (n : Nat) : allDigits (natDigits n) = true ∧ natDigits n ≠ [] := by
  induction n using Nat.strong_induction_on with
  | _ n ih =>
    rw [natDigits_eq]
    split
    · next h =>
      refine ⟨?_, by simp⟩
      simp [allDigits, isDigitC_digitChar h]
    · next h =>
      have ih' := ih (n / 10) (Nat.div_lt_self (by omega) (by omega))
      refine ⟨?_, by simp⟩
      simp only [allDigits, List.all_append, Bool.and_eq_true] at ih' ⊢
      exact ⟨ih'.1, by simp [isDigitC_digitChar (Nat.mod_lt n (by omega))]⟩

theorem decFold (n : Nat) :
    ∀ a, List.foldl (fun a c => a * 10 + (c.toNat - 48)) a (natDigits n)
      = a * 10 ^ (natDigits n).length + n := by
  induction n using Nat.strong_induction_on with
  | _ n ih =>
    intro a
    rw [natDigits_eq]
    split
    · next h =>
      simp only [List.foldl_cons, List.foldl_nil, List.length_cons, List.length_nil]
      rw [digitChar_toNat h, Nat.zero_add, pow_one]
      omega
    · next h =>
      have hlt : n / 10 < n := Nat.div_lt_self (by omega) (by omega)
      simp only [List.foldl_append, List.foldl_cons, List.foldl_nil, List.length_append,
        List.length_cons, List.length_nil]
      rw [ih (n / 10) hlt a, digitChar_toNat (Nat.mod_lt n (by omega))]
      have hsub : 48 + n % 10 - 48 = n % 10 := by omega
      rw [hsub, Nat.zero_add]
      calc (a * 10 ^ (natDigits (n / 10)).length + n / 10) * 10 + n % 10
          = a * (10 ^ (natDigits (n / 10)).length * 10) + (10 * (n / 10) + n % 10) := by ring
        _ = a * 10 ^ ((natDigits (n / 10)).length + 1) + n := by
            rw [pow_succ, Nat.div_add_mod]

theorem decDigitsVal_natDigits (n : Nat) : decDigitsVal (natDigits n) = n := by
  have := decFold n 0
  simpa [decDigitsVal] using this

theorem parseNatDec_natDigits (n : Nat) : parseNatDec (natDigits n) = some n := by
  rw [parseNatDec, if_pos ⟨(natDigits_all n).2, (natDigits_all n).1⟩, decDigitsVal_natDigits]

theorem isDigitC_ne_sign {c : Char} (h : isDigitC c = true) : c ≠ '+' ∧ c ≠ '-' := by
  constructor
  · intro he
    rw [he] at h
    exact absurd h (by decide)
  · intro he
    rw [he] at h
    exact absurd h (by decide)

theorem parseGoInt_formatInt {i : Int} (h1 : -(2 ^ 63) ≤ i) (h2 : i < 2 ^ 63) :
    parseGoInt (formatInt i) = some i := by
  by_cases hneg : i < 0
  · rw [formatInt, if_pos hneg]
    have hdata : ("-" ++ formatNat i.natAbs).data = '-' :: natDigits i.natAbs := by
      rw [String.data_append]
      rfl
    simp only [parseGoInt, hdata, if_true]
    rw [parseNatDec_natDigits]
    simp only [Option.some_bind]
    rw [if_pos (show i.natAbs ≤ 2 ^ 63 by omega), if_neg (show ¬('-' = '+') by decide)]
    simp only [Option.some.injEq]
    omega
  · rw [formatInt, if_neg hneg]
    obtain ⟨c, rest, hcons⟩ := List.exists_cons_of_ne_nil (natDigits_all i.toNat).2
    have hdc : isDigitC c = true := by
      have hall := (natDigits_all i.toNat).1
      rw [hcons] at hall
      simp only [allDigits, List.all_cons, Bool.and_eq_true] at hall
      exact hall.1
    obtain ⟨hp, hm⟩ := isDigitC_ne_sign hdc
    have hdata : (formatNat i.toNat).data = c :: rest := hcons
    simp only [parseGoInt, hdata]
    rw [if_neg hp, if_neg hm, ← hcons, parseNatDec_natDigits]
    simp only [Option.some_bind]
    rw [if_pos (show i.toNat ≤ 2 ^ 63 - 1 by omega)]
    simp only [Option.some.injEq]
    omega

theorem formatNat_ne_empty (n : Nat) : formatNat n ≠ "" := by
  intro h
  have hd := congrArg String.data h
  rw [formatNat] at hd
  exact (natDigits_all n).2 hd

theorem formatInt_ne_empty (i : Int) : formatInt i ≠ "" := by
  rw [formatInt]
  split
  · intro h
    have hd := congrArg String.data h
    rw [String.data_append] at hd
    simp at hd
  · exact formatNat_ne_empty _

theorem formatFloat_ne_empty (q : ℚ) : formatFloat q ≠ "" := by
  intro h
  have hd := congrArg String.data h
  simp only [formatFloat, String.data_append] at hd
  simp at hd

theorem marshal_total :
    ∀ (v : GoValue) (k : GoKind) (a : Bool),
      kindNoCustom k = true → matchesKind v k = true → ∃ s, marshalField a v = .ok s := by
  intro v
  induction v with
  | str s' =>
    intro k a hk hm
    exact ⟨s', rfl⟩
  | int i =>
    intro k a hk hm
    exact ⟨formatInt i, rfl⟩
  | bool b =>
    intro k a hk hm
    exact ⟨if b then "true" else "false", rfl⟩
  | float q =>
    intro k a hk hm
    exact ⟨formatFloat q, rfl⟩
  | ptrNil =>
    intro k a hk hm
    exact ⟨"", rfl⟩
  | ptrSome v ih =>
    intro k a hk hm
    cases k with
    | ptr k' =>
      simp only [kindNoCustom] at hk
      simp only [matchesKind] at hm
      exact ih k' true hk hm
    | str => exact absurd hm (by simp [matchesKind])
    | int => exact absurd hm (by simp [matchesKind])
    | bool => exact absurd hm (by simp [matchesKind])
    | float => exact absurd hm (by simp [matchesKind])
    | custom hU hM hS => exact absurd hm (by simp [matchesKind])
  | custom hM hS payload =>
    intro k a hk hm
    cases k with
    | custom hU hM' hS' => exact absurd hk (by simp [kindNoCustom])
    | str => exact absurd hm (by simp [matchesKind])
    | int => exact absurd hm (by simp [matchesKind])
    | bool => exact absurd hm (by simp [matchesKind])
    | float => exact absurd hm (by simp [matchesKind])
    | ptr k' => exact absurd hm (by simp [matchesKind])

theorem unmarshal_marshal :
    ∀ (v : GoValue) (k : GoKind) (a : Bool) (s : String),
      kindNoCustom k = true → matchesKind v k = true → floatRT v = true →
      marshalField a v = .ok s → s ≠ "" → unmarshalField true k s = .ok v := by
  intro v
  induction v with
  | str s' =>
    intro k a s hk hm hf hms hne
    cases k with
    | str =>
      simp only [marshalField, Except.ok.injEq] at hms
      subst hms
      rfl
    | int => exact absurd hm (by simp [matchesKind])
    | bool => exact absurd hm (by simp [matchesKind])
    | float => exact absurd hm (by simp [matchesKind])
    | ptr k' => exact absurd hm (by simp [matchesKind])
    | custom hU hM hS => exact absurd hm (by simp [matchesKind])
  | int i =>
    intro k a s hk hm hf hms hne
    cases k with
    | int =>
      simp only [marshalField, Except.ok.injEq] at hms
      subst hms
      simp only [matchesKind, decide_eq_true_eq] at hm
      rw [unmarshalField, parseGoInt_formatInt hm.1 hm.2]
    | str => exact absurd hm (by simp [matchesKind])
    | bool => exact absurd hm (by simp [matchesKind])
    | float => exact absurd hm (by simp [matchesKind])
    | ptr k' => exact absurd hm (by simp [matchesKind])
    | custom hU hM hS => exact absurd hm (by simp [matchesKind])
  | bool b =>
    intro k a s hk hm hf hms hne
    cases k with
    | bool =>
      simp only [marshalField, Except.ok.injEq] at hms
      subst hms
      cases b with
      | true => decide
      | false => decide
    | str => exact absurd hm (by simp [matchesKind])
    | int => exact absurd hm (by simp [matchesKind])
    | float => exact absurd hm (by simp [matchesKind])
    | ptr k' => exact absurd hm (by simp [matchesKind])
    | custom hU hM hS => exact absurd hm (by simp [matchesKind])
  | float q =>
    intro k a s hk hm hf hms hne
    cases k with
    | float =>
      simp only [marshalField, Except.ok.injEq] at hms
      subst hms
      simp only [floatRT, decide_eq_true_eq] at hf
      rw [unmarshalField, hf]
    | str => exact absurd hm (by simp [matchesKind])
    | int => exact absurd hm (by simp [matchesKind])
    | bool => exact absurd hm (by simp [matchesKind])
    | ptr k' => exact absurd hm (by simp [matchesKind])
    | custom hU hM hS => exact absurd hm (by simp [matchesKind])
  | ptrNil =>
    intro k a s hk hm hf hms hne
    simp only [marshalField, Except.ok.injEq] at hms
    exact absurd hms.symm hne
  | ptrSome v ih =>
    intro k a s hk hm hf hms hne
    cases k with
    | ptr k' =>
      simp only [kindNoCustom] at hk
      simp only [matchesKind] at hm
      simp only [floatRT] at hf
      simp only [marshalField] at hms
      have h := ih k' true s hk hm hf hms hne
      simp only [unmarshalField, h, Except.map]
    | str => exact absurd hm (by simp [matchesKind])
    | int => exact absurd hm (by simp [matchesKind])
    | bool => exact absurd hm (by simp [matchesKind])
    | float => exact absurd hm (by simp [matchesKind])
    | custom hU hM hS => exact absurd hm (by simp [matchesKind])
  | custom hM hS payload =>
    intro k a s hk hm hf hms hne
    cases k with
    | custom hU hM' hS' => exact absurd hk (by simp [kindNoCustom])
    | str => exact absurd hm (by simp [matchesKind])
    | int => exact absurd hm (by simp [matchesKind])
    | bool => exact absurd hm (by simp [matchesKind])
    | float => exact absurd hm (by simp [matchesKind])
    | ptr k' => exact absurd hm (by simp [matchesKind])

theorem lookup_cons_self {β : Type} (n : String) (w : β) (t : List (String × β)) :
    List.lookup n ((n, w) :: t) = some w := by
  simp [List.lookup]

theorem lookup_cons_ne {β : Type} (m n : String) (w : β) (t : List (String × β)) (h : m ≠ n) :
    List.lookup m ((n, w) :: t) = List.lookup m t := by
  have hb : (m == n) = false := beq_eq_false_iff_ne.mpr h
  simp [List.lookup, hb]

theorem cellOf_cons_ne (f : FieldDesc) (n : String) (w : GoValue) (r : GoRecord)
    (h : f.name ≠ n) : cellOf f ((n, w) :: r) = cellOf f r := by
  simp only [cellOf, lookup_cons_ne f.name n w r h]

theorem decodeStep_cons_ne (f : FieldDesc) (n : String) (w : GoValue) (r acc : GoRecord)
    (h : f.name ≠ n) : decodeStep ((n, w) :: r) acc f = decodeStep r acc f := by
  simp only [decodeStep, cellOf_cons_ne f n w r h, lookup_cons_ne f.name n w r h]

theorem updateField_cons_self (n : String) (w v : GoValue) (t : GoRecord) :
    updateField ((n, w) :: t) n v = (n, v) :: t := by
  simp [updateField]

theorem updateField_cons_ne (m n : String) (w v : GoValue) (t : GoRecord) (h : n ≠ m) :
    updateField ((n, w) :: t) m v = (n, w) :: updateField t m v := by
  simp [updateField, h]

theorem foldl_decodeStep_cons (r : GoRecord) (n : String) (w : GoValue) :
    ∀ (fs : List FieldDesc) (acc : GoRecord), (∀ f ∈ fs, f.name ≠ n) →
      fs.foldl (decodeStep r) ((n, w) :: acc) = (n, w) :: fs.foldl (decodeStep r) acc
  | [], acc, _ => rfl
  | f :: fs, acc, h => by
    have hf := h f (List.mem_cons_self _ _)
    have hrest := fun g hg => h g (List.mem_cons_of_mem _ hg)
    have hstep : decodeStep r ((n, w) :: acc) f = (n, w) :: decodeStep r acc f := by
      simp only [decodeStep]
      split
      · rfl
      · exact updateField_cons_ne f.name n w _ acc (fun he => hf he.symm)
    simp only [List.foldl_cons, hstep]
    exact foldl_decodeStep_cons r n w fs _ hrest

theorem colIndexFrom_not_mem (a : String) :
    ∀ (l : List String) (i : Nat), a ∉ l → colIndexFrom a i l = none
  | [], _, _ => rfl
  | h :: t, i, hmem => by
    have ht := colIndexFrom_not_mem a t (i + 1) (fun hh => hmem (List.mem_cons_of_mem _ hh))
    simp only [colIndexFrom, ht]
    rw [if_neg (fun he => hmem (by rw [← he]; exact List.mem_cons_self _ _))]

theorem colIndexFrom_get :
    ∀ (l : List String) (j : Nat) (hj : j < l.length) (i : Nat), l.Nodup →
      colIndexFrom (l.get ⟨j, hj⟩) i l = some (i + j)
  | h :: t, 0, hj, i, hnd => by
    have hnotmem : h ∉ t := (List.nodup_cons.mp hnd).1
    simp only [List.get, colIndexFrom, colIndexFrom_not_mem h t (i + 1) hnotmem,
      Nat.add_zero]
    simp
  | h :: t, j + 1, hj, i, hnd => by
    have ht := colIndexFrom_get t j (by simpa using hj) (i + 1) (List.nodup_cons.mp hnd).2
    simp only [List.get, colIndexFrom, ht]
    congr 1
    omega

theorem colIndex_get (l : List String) (j : Nat) (hj : j < l.length) (hnd : l.Nodup) :
    colIndex l (l.get ⟨j, hj⟩) = some j := by
  simpa [colIndex] using colIndexFrom_get l j hj 0 hnd

theorem except_ok_toOption_getD {ε α : Type} (a d : α) :
    (Except.ok a : Except ε α).toOption.getD d = a := rfl

theorem cellOf_empty_val (st : StructType) (f : FieldDesc) (r : GoRecord)
    (h : fieldValOK st f r) (hc : cellOf f r = "") :
    f.omitEmpty = true
      ∧ ∃ v k, r.lookup f.name = some v ∧ st.lookup f.name = some k ∧ v = zeroValue k := by
  obtain ⟨v, k, hv, hk, hm, hkc, hf, hW⟩ := h
  by_cases hnil : isNilPtr v = true
  · have hw : writeCell v = .ok "" := by simp [writeCell, hnil]
    exact ⟨(hW hw).1, v, k, hv, hk, (hW hw).2⟩
  · rw [Bool.not_eq_true] at hnil
    obtain ⟨s, hs⟩ := marshal_total v k false hkc hm
    have hcell : cellOf f r = s := by simp [cellOf, hv, hnil, hs, except_ok_toOption_getD]
    have hse : s = "" := by rw [← hcell, hc]
    have hw : writeCell v = .ok "" := by
      rw [writeCell, if_neg (by simp [hnil]), hs, hse]
    exact ⟨(hW hw).1, v, k, hv, hk, (hW hw).2⟩

theorem cellOf_nonempty_val (st : StructType) (f : FieldDesc) (r : GoRecord)
    (h : fieldValOK st f r) (hc : cellOf f r ≠ "") :
    ∃ v k, r.lookup f.name = some v ∧ st.lookup f.name = some k
      ∧ unmarshalField true k (cellOf f r) = .ok v := by
  obtain ⟨v, k, hv, hk, hm, hkc, hf, hW⟩ := h
  by_cases hnil : isNilPtr v = true
  · exact absurd (by simp [cellOf, hv, hnil]) hc
  · rw [Bool.not_eq_true] at hnil
    obtain ⟨s, hs⟩ := marshal_total v k false hkc hm
    have hcell : cellOf f r = s := by simp [cellOf, hv, hnil, hs, except_ok_toOption_getD]
    rw [hcell] at hc ⊢
    exact ⟨v, k, hv, hk, unmarshal_marshal v k false s hkc hm hf hs hc⟩

theorem marshalCell_ok (st : StructType) (f : FieldDesc) (r : GoRecord) (line : Nat)
    (h : fieldValOK st f r) : marshalCell f r line = .ok (cellOf f r) := by
  obtain ⟨v, k, hv, hk, hm, hkc, hf, hW⟩ := h
  by_cases hnil : isNilPtr v = true
  · simp [marshalCell, cellOf, hv, hnil]
  · rw [Bool.not_eq_true] at hnil
    obtain ⟨s, hs⟩ := marshal_total v k false hkc hm
    have hcell : cellOf f r = s := by simp [cellOf, hv, hnil, hs, except_ok_toOption_getD]
    by_cases hse : s = ""
    · have hw : writeCell v = .ok "" := by
        rw [writeCell, if_neg (by simp [hnil]), hs, hse]
      have homit := (hW hw).1
      rw [hcell, hse]
      simp [marshalCell, hv, hnil, hs, hse, homit]
    · rw [hcell]
      simp [marshalCell, hv, hnil, hs, hse]

theorem marshalRow_map (r : GoRecord) (line : Nat) :
    ∀ (fs : List FieldDesc), (∀ f ∈ fs, marshalCell f r line = .ok (cellOf f r)) →
      marshalRow fs r line = .ok (fs.map (fun f => cellOf f r))
  | [], _ => rfl
  | f :: fs, h => by
    have hf := h f (List.mem_cons_self _ _)
    have hrest := marshalRow_map r line fs (fun g hg => h g (List.mem_cons_of_mem _ hg))
    simp only [marshalRow, hf, hrest, List.map_cons]

theorem toCSVRows_map (fields : List FieldDesc) :
    ∀ (rs : List GoRecord) (line : Nat),
      (∀ r ∈ rs, ∀ line', marshalRow fields r line' = .ok (fields.map (fun f => cellOf f r))) →
      toCSVRows fields line rs = (rs.map (fun r => fields.map (fun f => cellOf f r)), none)
  | [], _, _ => rfl
  | r :: rs, line, h => by
    have hr := h r (List.mem_cons_self _ _) line
    have hrest := toCSVRows_map fields rs (line + 1) (fun g hg => h g (List.mem_cons_of_mem _ hg))
    simp only [toCSVRows, hr, hrest, List.map_cons]

theorem decodeRow_foldl (st : StructType) (header cells : List String) (line : Nat)
    (r : GoRecord) :
    ∀ (fs : List FieldDesc) (acc : GoRecord),
      (∀ f ∈ fs, fieldValOK st f r
        ∧ ∃ i, colIndex header f.aliasName = some i ∧ cells.getD i "" = cellOf f r) →
      decodeRow st header cells line fs acc = (fs.foldl (decodeStep r) acc, none)
  | [], acc, _ => rfl
  | f :: fs, acc, h => by
    obtain ⟨hok, i, hcol, hcell⟩ := h f (List.mem_cons_self _ _)
    have hrest := fun g hg => h g (List.mem_cons_of_mem _ hg)
    simp only [decodeRow, hcol, hcell, List.foldl_cons]
    by_cases hc : cellOf f r = ""
    · have homit := (cellOf_empty_val st f r hok hc).1
      rw [if_pos hc, if_pos homit]
      have hstep : decodeStep r acc f = acc := by simp [decodeStep, hc]
      rw [hstep]
      exact decodeRow_foldl st header cells line r fs acc hrest
    · obtain ⟨v, k, hv, hk, hun⟩ := cellOf_nonempty_val st f r hok hc
      rw [if_neg hc]
      have hdec : decodeCell st f (cellOf f r) = .ok v := by
        simp only [decodeCell, hk, hun]
      rw [hdec]
      dsimp only []
      have hstep : decodeStep r acc f = updateField acc f.name v := by
        simp [decodeStep, hc, hv]
      rw [← hstep]
      exact decodeRow_foldl st header cells line r fs (decodeStep r acc f) hrest

theorem fieldValOK_tail (st' : StructType) (n : String) (k : GoKind) (v : GoValue)
    (r' : GoRecord) (f : FieldDesc) (hne : f.name ≠ n)
    (h : fieldValOK ((n, k) :: st') f ((n, v) :: r')) : fieldValOK st' f r' := by
  obtain ⟨w, kk, hw, hkk, hm, hkc, hf, hW⟩ := h
  rw [lookup_cons_ne f.name n v r' hne] at hw
  rw [lookup_cons_ne f.name n k st' hne] at hkk
  exact ⟨w, kk, hw, hkk, hm, hkc, hf, hW⟩

theorem foldl_decodeStep_zero :
    ∀ (st : StructType) (fs : List FieldDesc) (r : GoRecord),
      (st.map Prod.fst).Nodup →
      fs.map FieldDesc.name = st.map Prod.fst →
      recordTyped st r = true →
      (∀ f ∈ fs, fieldValOK st f r) →
      fs.foldl (decodeStep r) (zeroRecord st) = r
  | [], fs, r, _, hnames, htyped, _ => by
    have hfs : fs = [] := by
      have := hnames
      simp only [List.map_nil] at this
      exact List.map_eq_nil_iff.mp this
    cases r with
    | nil => simp [hfs, zeroRecord]
    | cons p r' => simp [recordTyped] at htyped
  | (n, k) :: st', fs, r, hnd, hnames, htyped, hvals => by
    cases fs with
    | nil => simp at hnames
    | cons f fs' =>
      cases r with
      | nil => simp [recordTyped] at htyped
      | cons p r' =>
        obtain ⟨m, v⟩ := p
        simp only [List.map_cons, List.cons.injEq] at hnames
        obtain ⟨hfn, hnames'⟩ := hnames
        simp only [recordTyped, Bool.and_eq_true, decide_eq_true_eq] at htyped
        obtain ⟨⟨hnm, hmk⟩, htyped'⟩ := htyped
        subst hnm
        have hnd' : (st'.map Prod.fst).Nodup := (List.nodup_cons.mp (by simpa using hnd)).2
        have hnmem : n ∉ st'.map Prod.fst := (List.nodup_cons.mp (by simpa using hnd)).1
        have hok := hvals f (List.mem_cons_self _ _)
        have hvf : List.lookup f.name ((n, v) :: r') = some v := by
          rw [hfn]
          exact lookup_cons_self n v r'
        have hfs'ne : ∀ g ∈ fs', g.name ≠ n := by
          intro g hg he
          apply hnmem
          rw [← he]
          rw [← hnames']
          exact List.mem_map_of_mem FieldDesc.name hg
        have hzero : zeroRecord ((n, k) :: st') = (n, zeroValue k) :: zeroRecord st' := rfl
        have hstep : decodeStep ((n, v) :: r') ((n, zeroValue k) :: zeroRecord st') f
            = (n, v) :: zeroRecord st' := by
          by_cases hc : cellOf f ((n, v) :: r') = ""
          · obtain ⟨homit, w, kk, hw, hkk, hz⟩ :=
              cellOf_empty_val ((n, k) :: st') f ((n, v) :: r') hok hc
            rw [hvf] at hw
            have hkkk : List.lookup f.name ((n, k) :: st') = some k := by
              rw [hfn]
              exact lookup_cons_self n k st'
            rw [hkkk] at hkk
            have hw' : w = v := by
              injection hw with h1
              exact h1.symm
            have hkk' : kk = k := by
              injection hkk with h2
              exact h2.symm
            rw [hw', hkk'] at hz
            simp only [decodeStep, if_pos hc]
            rw [hz]
          · simp only [decodeStep, if_neg hc, hfn, lookup_cons_self, Option.getD_some]
            exact updateField_cons_self n (zeroValue k) v (zeroRecord st')
        have htail : ∀ g ∈ fs', fieldValOK st' g r' := by
          intro g hg
          exact fieldValOK_tail st' n k v r' g (hfs'ne g hg) (hvals g (List.mem_cons_of_mem _ hg))
        have htrans : fs'.foldl (decodeStep ((n, v) :: r')) (zeroRecord st')
            = fs'.foldl (decodeStep r') (zeroRecord st') := by
          apply List.foldl_ext
          intro a g hg
          exact decodeStep_cons_ne g n v r' a (hfs'ne g hg)
        calc (f :: fs').foldl (decodeStep ((n, v) :: r')) (zeroRecord ((n, k) :: st'))
            = fs'.foldl (decodeStep ((n, v) :: r')) ((n, v) :: zeroRecord st') := by
              rw [List.foldl_cons, hzero, hstep]
          _ = (n, v) :: fs'.foldl (decodeStep ((n, v) :: r')) (zeroRecord st') := by
              rw [foldl_decodeStep_cons ((n, v) :: r') n v fs' (zeroRecord st') hfs'ne]
          _ = (n, v) :: fs'.foldl (decodeStep r') (zeroRecord st') := by rw [htrans]
          _ = (n, v) :: r' := by
              rw [foldl_decodeStep_zero st' fs' r' hnd' hnames' htyped' htail]

theorem colIndex_alias (fields : List FieldDesc)
    (hnd : (fields.map FieldDesc.aliasName).Nodup) (f : FieldDesc) (hf : f ∈ fields) :
    ∃ j, colIndex (fields.map FieldDesc.aliasName) f.aliasName = some j
      ∧ fields.get? j = some f := by
  obtain ⟨⟨j, hj⟩, hget⟩ := List.mem_iff_get.mp hf
  have hjm : j < (fields.map FieldDesc.aliasName).length := by simpa using hj
  have hga : (fields.map FieldDesc.aliasName).get ⟨j, hjm⟩ = f.aliasName := by
    rw [List.get_map]
    rw [hget]
  refine ⟨j, ?_, ?_⟩
  · rw [← hga]
    exact colIndex_get _ j hjm hnd
  · rw [List.get?_eq_get hj, hget]

theorem processRow_inv (st : StructType) (fields : List FieldDesc) (r : GoRecord)
    (line : Nat)
    (hNames : fields.map FieldDesc.name = st.map Prod.fst)
    (hNodupNames : (st.map Prod.fst).Nodup)
    (hNodupAliases : (fields.map FieldDesc.aliasName).Nodup)
    (hTyped : recordTyped st r = true)
    (hVals : ∀ f ∈ fields, fieldValOK st f r) :
    processRow st fields (fields.map FieldDesc.aliasName) line
      (fields.map (fun f => cellOf f r)) = (r, none) := by
  rw [processRow, if_neg (by simp)]
  rw [decodeRow_foldl st _ _ line r fields (zeroRecord st) ?_]
  · rw [foldl_decodeStep_zero st fields r hNodupNames hNames hTyped hVals]
  · intro f hf
    refine ⟨hVals f hf, ?_⟩
    obtain ⟨j, hcol, hget⟩ := colIndex_alias fields hNodupAliases f hf
    refine ⟨j, hcol, ?_⟩
    have hq : (fields.map (fun f => cellOf f r)).get? j = some (cellOf f r) := by
      rw [List.get?_map, hget]
      rfl
    rw [List.getD_eq_get?, hq]
    rfl

theorem stopAfter_true {α : Type} : ∀ (l : List α), stopAfter (fun _ => true) l = l
  | [] => rfl
  | p :: ps => by simp [stopAfter, stopAfter_true ps]

theorem fullRun_written (st : StructType) (fields : List FieldDesc)
    (hNames : fields.map FieldDesc.name = st.map Prod.fst)
    (hNodupNames : (st.map Prod.fst).Nodup)
    (hNodupAliases : (fields.map FieldDesc.aliasName).Nodup) :
    ∀ (rs : List GoRecord) (line : Nat),
      (∀ r ∈ rs, recordTyped st r = true) →
      (∀ r ∈ rs, ∀ f ∈ fields, fieldValOK st f r) →
      fullRun st fields (fields.map FieldDesc.aliasName) line
          (rs.map (fun r => fields.map (fun f => cellOf f r)))
        = rs.map (fun r => (r, none))
  | [], _, _, _ => rfl
  | r :: rs, line, htyped, hvals => by
    have hr := processRow_inv st fields r line hNames hNodupNames hNodupAliases
      (htyped r (List.mem_cons_self _ _)) (hvals r (List.mem_cons_self _ _))
    have hrest := fullRun_written st fields hNames hNodupNames hNodupAliases rs (line + 1)
      (fun g hg => htyped g (List.mem_cons_of_mem _ hg))
      (fun g hg => hvals g (List.mem_cons_of_mem _ hg))
    simp only [List.map_cons, fullRun, hr, hrest]

/-- C1 counterexample: the one-field float record holding the exact value
`2 ^ -23` has a non-empty encoding (`0.000000`), yet writing with `ToCSV` and
reading back with `FromCSV` yields the record holding float `0`, not the
original — `%f` keeps only six fractional digits. -/
theorem c1_float_counterexample :
    toCSVGo true [⟨"X", "x", false⟩] [[("X", GoValue.float (1 / 8388608))]]
        = ([["x"], ["0.000000"]], none)
      ∧ fromCSVGo [("X", GoKind.float)] [⟨"X", "x", false⟩] (fun _ => true)
          [["x"], ["0.000000"]]
          = .ok [([("X", GoValue.float 0)], none)]
      ∧ [("X", GoValue.float 0)] ≠ [("X", GoValue.float (1 / 8388608))] := by
  refine ⟨by with_unfolding_all decide, by with_unfolding_all decide, by with_unfolding_all decide⟩

/-- C1 amended.  The round-trip law holds for the covered primitive kinds
(strings, 64-bit ints, bools, floats, pointers to these; the `encoding/csv`
layer transports cell rows faithfully) under the claim's hypotheses made
exact: the adapter maps every struct field, struct names and aliases are
duplicate-free, records are well-typed, every float value survives the
six-digit fixed rendering exactly, and any field whose written cell would be
empty is omit-empty and holds its zero value.  Then `ToCSV` writes the header
and one row per record with no error, and `FromCSV` on that output yields
exactly the original records, each paired with no error. -/
theorem c1_roundtrip_amended (st : StructType) (fields : List FieldDesc)
    (rs : List GoRecord)
    (hNames : fields.map FieldDesc.name = st.map Prod.fst)
    (hNodupNames : (st.map Prod.fst).Nodup)
    (hNodupAliases : (fields.map FieldDesc.aliasName).Nodup)
    (hTyped : ∀ r ∈ rs, recordTyped st r = true)
    (hVals : ∀ r ∈ rs, ∀ f ∈ fields, fieldValOK st f r) :
    toCSVGo true fields rs
        = ((fields.map (fun f => f.aliasName))
            :: rs.map (fun r => fields.map (fun f => cellOf f r)), none)
      ∧ fromCSVGo st fields (fun _ => true) (toCSVGo true fields rs).1
        = .ok (rs.map (fun r => (r, none))) := by
  have hwrite : toCSVRows fields 1 rs
      = (rs.map (fun r => fields.map (fun f => cellOf f r)), none) :=
    toCSVRows_map fields rs 1 (fun r hr line' =>
      marshalRow_map r line' fields (fun f hf => marshalCell_ok st f r line' (hVals r hr f hf)))
  have htop : toCSVGo true fields rs
      = ((fields.map (fun f => f.aliasName))
          :: rs.map (fun r => fields.map (fun f => cellOf f r)), none) := by
    rw [toCSVGo, hwrite]
    rfl
  refine ⟨htop, ?_⟩
  rw [htop]
  have hfind : fields.find?
      (fun f => !f.omitEmpty && (colIndex (fields.map FieldDesc.aliasName) f.aliasName).isNone)
      = none := by
    rw [List.find?_eq_none]
    intro f hf
    obtain ⟨j, hcol, -⟩ := colIndex_alias fields hNodupAliases f hf
    simp [hcol]
  have hmapalias : fields.map (fun f => f.aliasName) = fields.map FieldDesc.aliasName := rfl
  rw [hmapalias]
  simp only [fromCSVGo, hfind]
  rw [iterRows_eq_stopAfter, stopAfter_true,
    fullRun_written st fields hNames hNodupNames hNodupAliases rs 1 hTyped hVals]

set_option maxRecDepth 8192 in
/-- C1 witness: a record with a string, an int, a bool, a float (`1/2`, which
the six-digit rendering preserves), a pointer field and an omit-empty empty
string field round-trips exactly: writing it and reading the output back
yields the record with no error. -/
theorem c1_witness :
    fromCSVGo
        [("Name", GoKind.str), ("Age", GoKind.int), ("Ok", GoKind.bool),
          ("Score", GoKind.float), ("Ptr", GoKind.ptr GoKind.str), ("Email", GoKind.str)]
        [⟨"Name", "name", false⟩, ⟨"Age", "age", false⟩, ⟨"Ok", "ok", false⟩,
          ⟨"Score", "score", false⟩, ⟨"Ptr", "ptr", false⟩, ⟨"Email", "email", true⟩]
        (fun _ => true)
        (toCSVGo true
          [⟨"Name", "name", false⟩, ⟨"Age", "age", false⟩, ⟨"Ok", "ok", false⟩,
            ⟨"Score", "score", false⟩, ⟨"Ptr", "ptr", false⟩, ⟨"Email", "email", true⟩]
          [[("Name", GoValue.str "John"), ("Age", GoValue.int 30), ("Ok", GoValue.bool true),
            ("Score", GoValue.float (1 / 2)), ("Ptr", GoValue.ptrSome (GoValue.str "x")),
            ("Email", GoValue.str "")]]).1
      = .ok [([("Name", GoValue.str "John"), ("Age", GoValue.int 30),
          ("Ok", GoValue.bool true), ("Score", GoValue.float (1 / 2)),
          ("Ptr", GoValue.ptrSome (GoValue.str "x")), ("Email", GoValue.str "")], none)] := by
  have h := c1_roundtrip_amended
    [("Name", GoKind.str), ("Age", GoKind.int), ("Ok", GoKind.bool),
      ("Score", GoKind.float), ("Ptr", GoKind.ptr GoKind.str), ("Email", GoKind.str)]
    [⟨"Name", "name", false⟩, ⟨"Age", "age", false⟩, ⟨"Ok", "ok", false⟩,
      ⟨"Score", "score", false⟩, ⟨"Ptr", "ptr", false⟩, ⟨"Email", "email", true⟩]
    [[("Name", GoValue.str "John"), ("Age", GoValue.int 30), ("Ok", GoValue.bool true),
      ("Score", GoValue.float (1 / 2)), ("Ptr", GoValue.ptrSome (GoValue.str "x")),
      ("Email", GoValue.str "")]]
    (by decide) (by decide) (by decide)
    (by with_unfolding_all decide)
    (by
      intro r hr f hf
      fin_cases hr <;> fin_cases hf
      · exact ⟨GoValue.str "John", GoKind.str, by decide, by decide, by decide, by decide,
          by decide, fun hw => absurd hw (by decide)⟩
      · exact ⟨GoValue.int 30, GoKind.int, by decide, by decide, by decide, by decide,
          by decide, fun hw => absurd hw (by decide)⟩
      · exact ⟨GoValue.bool true, GoKind.bool, by decide, by decide, by decide, by decide,
          by decide, fun hw => absurd hw (by decide)⟩
      · exact ⟨GoValue.float (1 / 2), GoKind.float, by with_unfolding_all decide,
          by decide, by decide, by decide, by with_unfolding_all decide,
          fun hw => absurd hw (by with_unfolding_all decide)⟩
      · exact ⟨GoValue.ptrSome (GoValue.str "x"), GoKind.ptr GoKind.str, by decide, by decide,
          by decide, by decide, by decide, fun hw => absurd hw (by decide)⟩
      · exact ⟨GoValue.str "", GoKind.str, by decide, by decide, by decide, by decide,
          by decide, fun _ => ⟨rfl, rfl⟩⟩)
  exact h.2

end CsvAdapter
